import Mathlib

/-!
Shallow embedding of the Flow workflow library (package `Flow`: `node.go`,
`shared_state.go`, and the flow orchestrator file) and proofs about it.

Modelling conventions:
* Go `interface{}` values that occur in the library are modelled by the
  inductive `GoVal`.  `time.Duration` is its underlying `int64` nanosecond
  count.  Slices of element types other than `interface{}`, `int`, `string`
  are represented here by `boolSlice` (the shape only matters for
  `convertToSlice`, which treats every such slice as a single opaque item).
* Go maps (`params`, `successors`, the shared-state map) are association
  lists with first-match lookup; a missing key reads as the zero value
  `GoVal.nil` exactly as a Go map read does.
* User functions are pure Lean functions.  A user `execFunc` may close over
  mutable state (the tests count invocations), so it is modelled as a
  function of the invocation index and the input: `Nat → GoVal → Except
  String GoVal`, where `.error` models a returned non-nil `error`.
* A Go `panic` is modelled as the `.error` constructor of the run outcome.
* Goroutine nondeterminism in `runBatchParallel` is modelled by an explicit
  completion schedule: the list of item indices in the order their tasks
  run.  Faithful schedules are permutations of `List.range items.length`.
-/

namespace FlowSpec

/-- DefaultAction constant from the orchestrator file. -/
def DefaultAction : String := "default"

/-- BatchCompleteAction constant from node.go. -/
def BatchCompleteAction : String := "batch_complete"

/-- Go values flowing through the library. -/
inductive GoVal where
  | nil
  | str (s : String)
  | int (n : Int)
  | bool (b : Bool)
  | duration (d : Int)
  | list (xs : List GoVal)
  | intSlice (xs : List Int)
  | strSlice (xs : List String)
  | boolSlice (xs : List Bool)

/-- The Go nil check `v != nil`, as a boolean on modelled values. -/
def isNilVal : GoVal → Bool
  | .nil => true
  | _ => false

/-- Shared state and parameter maps: string-keyed association lists. -/
abbrev GoMap := List (String × GoVal)

/-- Go map assignment `m[k] = v`: replace the binding if present, else add it. -/
def mapSet (m : GoMap) (k : String) (v : GoVal) : GoMap :=
  match m with
  | [] => [(k, v)]
  | (k0, v0) :: rest => if k0 = k then (k, v) :: rest else (k0, v0) :: mapSet rest k v

/-- Go map read `m[k]`: the stored value, or the zero value nil when absent.
Embeds both `SharedState.Get` and the `Node.GetParam` map read. -/
def mapGet (m : GoMap) (k : String) : GoVal :=
  match m.lookup k with
  | some v => v
  | none => .nil

/-- getIntParam from node.go: a stored int, else 0. -/
def getIntParam (params : GoMap) (key : String) : Int :=
  match mapGet params key with
  | .int i => i
  | _ => 0

/-- getBoolParam from node.go: a stored bool, else false. -/
def getBoolParam (params : GoMap) (key : String) : Bool :=
  match mapGet params key with
  | .bool b => b
  | _ => false

/-- getDurationParam from node.go: a stored time.Duration, else 0. -/
def getDurationParam (params : GoMap) (key : String) : Int :=
  match mapGet params key with
  | .duration d => d
  | _ => 0

/-- convertToSlice from node.go: `[]interface\x7b\x7d`, `[]int` and `[]string`
are converted element by element; any other value is wrapped as a
single-item slice. -/
def convertToSlice : GoVal → List GoVal
  | .list v => v
  | .intSlice v => v.map GoVal.int
  | .strSlice v => v.map GoVal.str
  | d => [d]

/-- Helper for rendering an int slice the way Go fmt renders `[]int`. -/
def goFormatInts (xs : List Int) : String :=
  String.intercalate " " (xs.map toString)

/-- Helper for rendering a string slice the way Go fmt renders `[]string`. -/
def goFormatStrs (xs : List String) : String :=
  String.intercalate " " xs

/-- Helper for rendering a bool slice. -/
def goFormatBools (xs : List Bool) : String :=
  String.intercalate " " (xs.map (fun b => if b then "true" else "false"))

mutual
/-- Rendering used for the final label in runSingle and runWithRetry: the
string itself for a string value, otherwise Go fmt Sprintf with the v verb.
Durations below one microsecond render with the ns suffix; no claim depends
on duration rendering. -/
def goFormat : GoVal → String
  | .nil => "<nil>"
  | .str s => s
  | .int n => toString n
  | .bool b => if b then "true" else "false"
  | .duration d => toString d ++ "ns"
  | .list xs => "[" ++ goFormatList xs ++ "]"
  | .intSlice xs => "[" ++ goFormatInts xs ++ "]"
  | .strSlice xs => "[" ++ goFormatStrs xs ++ "]"
  | .boolSlice xs => "[" ++ goFormatBools xs ++ "]"

/-- Space-separated rendering of the elements of a value slice. -/
def goFormatList : List GoVal → String
  | [] => ""
  | [x] => goFormat x
  | x :: y :: xs => goFormat x ++ " " ++ goFormatList (y :: xs)
end

/-- The user exec function: invocation index (its closed-over mutable state)
and input to either a result or a returned error. -/
abbrev ExecFn := Nat → GoVal → Except String GoVal

/-- The adaptive Node of node.go: parameters plus the three optional user
functions.  (Successor edges are modelled separately for the orchestrator;
the runners never read them.)  The post function reads the shared state but
its only observed output is the returned label, as in every use in the
repository. -/
structure Node where
  params : GoMap
  execFunc : Option ExecFn
  prepFunc : Option (GoMap → GoVal)
  postFunc : Option (GoMap → GoVal → GoVal → String)

/-- Outcome of one Node.Run call: the returned label (or the panic payload),
the shared state afterwards, and how many times exec and prep were invoked. -/
structure RunRes where
  label : Except String String
  shared : GoMap
  execCalls : Nat
  prepCalls : Nat

/-- Prep phase: prepFunc applied once when set, else the nil prep result. -/
def prepValue (n : Node) (shared : GoMap) : GoVal :=
  match n.prepFunc with
  | some p => p shared
  | none => .nil

/-- Number of prep invocations a single prep phase performs. -/
def prepCount (n : Node) : Nat :=
  match n.prepFunc with
  | some _ => 1
  | none => 0

/-- Post phase of runSingle and runWithRetry: postFunc when set, else the
string conversion of the exec result. -/
def postLabel (n : Node) (shared : GoMap) (prepResult execResult : GoVal) : String :=
  match n.postFunc with
  | some post => post shared prepResult execResult
  | none => goFormat execResult

/-- The retry loop of runWithRetry (also the per-item retry loop of the two
batch runners): up to `remaining` attempts of exec, invocation counter `c`,
returning the final outcome (`.error` models the panic after the last failed
attempt) and the number of exec invocations made. -/
def retryAttempts (f : ExecFn) (x : GoVal) : Nat → Nat → (Except String GoVal) × Nat
  | _, 0 => (.ok (.str DefaultAction), 0)
  | c, remaining + 1 =>
    match f c x with
    | .ok v => (.ok v, 1)
    | .error e =>
      if remaining = 0 then (.error e, 1)
      else
        let r := retryAttempts f x (c + 1) remaining
        (r.1, r.2 + 1)

/-- runSingle from node.go: prep, one exec (error is fatal), post. -/
def runSingle (n : Node) (shared : GoMap) : RunRes :=
  let prepResult := prepValue n shared
  match n.execFunc with
  | none =>
    { label := .ok (postLabel n shared prepResult (.str DefaultAction))
      shared := shared, execCalls := 0, prepCalls := prepCount n }
  | some f =>
    match f 0 prepResult with
    | .error e => { label := .error e, shared := shared, execCalls := 1, prepCalls := prepCount n }
    | .ok v =>
      { label := .ok (postLabel n shared prepResult v)
        shared := shared, execCalls := 1, prepCalls := prepCount n }

/-- runWithRetry from node.go: prep once, then up to maxRetries attempts of
exec; a missing exec function ends the loop at once with the default result. -/
def runWithRetry (n : Node) (shared : GoMap) (maxRetries : Nat) : RunRes :=
  let prepResult := prepValue n shared
  match n.execFunc with
  | none =>
    { label := .ok (postLabel n shared prepResult (.str DefaultAction))
      shared := shared, execCalls := 0, prepCalls := prepCount n }
  | some f =>
    match retryAttempts f prepResult 0 maxRetries with
    | (.ok v, k) =>
      { label := .ok (postLabel n shared prepResult v)
        shared := shared, execCalls := k, prepCalls := prepCount n }
    | (.error e, k) =>
      { label := .error e, shared := shared, execCalls := k, prepCalls := prepCount n }

/-- One per-item exec of the batch runners: the per-item retry loop when
retries is positive, else a single exec call. -/
def batchItemExec (f : ExecFn) (retries : Int) (c : Nat) (item : GoVal) :
    (Except String GoVal) × Nat :=
  if 0 < retries then retryAttempts f item c retries.toNat
  else (f c item, 1)

/-- The item loop of runBatchSequential: items in order, appending successful
results; a failed item (after its retries) panics and aborts the rest.
Returns the results together with the total number of exec invocations. -/
def runBatchSeqItems (f : ExecFn) (retries : Int) :
    List GoVal → Nat → (Except String (List GoVal)) × Nat
  | [], _ => (.ok [], 0)
  | item :: rest, c =>
    let r := batchItemExec f retries c item
    match r.1 with
    | .error e => (.error e, r.2)
    | .ok v =>
      let rs := runBatchSeqItems f retries rest (c + r.2)
      match rs.1 with
      | .error e => (.error e, r.2 + rs.2)
      | .ok vs => (.ok (v :: vs), r.2 + rs.2)

/-- runBatchSequential from node.go: convert the data, process items in
order (a nil exec function skips every item), store the results under the
batch results key, return the batch-complete action. -/
def runBatchSequential (n : Node) (shared : GoMap) (data : GoVal) : RunRes :=
  let items := convertToSlice data
  let retries := getIntParam n.params "retries"
  match n.execFunc with
  | none =>
    { label := .ok BatchCompleteAction
      shared := mapSet shared "batch_results" (.list []), execCalls := 0, prepCalls := 0 }
  | some f =>
    match runBatchSeqItems f retries items 0 with
    | (.ok vs, k) =>
      { label := .ok BatchCompleteAction
        shared := mapSet shared "batch_results" (.list vs), execCalls := k, prepCalls := 0 }
    | (.error e, k) => { label := .error e, shared := shared, execCalls := k, prepCalls := 0 }

/-- The task pool of runBatchParallel, run under completion schedule
`sched`: the task for index i applies the per-item (retry) exec to items[i]
and writes the result into slot i of the pre-sized results slice.  The
invocation counter is threaded in completion order.  A task panic aborts
the whole batch. -/
def parTasks (f : ExecFn) (retries : Int) (items : List GoVal) :
    List Nat → List GoVal → Nat → (Except String (List GoVal)) × Nat
  | [], acc, _ => (.ok acc, 0)
  | i :: rest, acc, c =>
    match items[i]? with
    | none => parTasks f retries items rest acc c
    | some item =>
      let r := batchItemExec f retries c item
      match r.1 with
      | .error e => (.error e, r.2)
      | .ok v =>
        let rs := parTasks f retries items rest (acc.set i v) (c + r.2)
        (rs.1, r.2 + rs.2)

/-- runBatchParallel from node.go: convert the data, pre-size the results
slice (length of items, nil-filled), fan the items out (a nil exec function
makes every task a no-op, leaving the nil entries), store the results under
the batch results key, return the batch-complete action.  The parallel
limit only bounds concurrency; it does not appear in the data flow. -/
def runBatchParallel (n : Node) (shared : GoMap) (data : GoVal) (sched : List Nat) : RunRes :=
  let items := convertToSlice data
  let retries := getIntParam n.params "retries"
  match n.execFunc with
  | none =>
    { label := .ok BatchCompleteAction
      shared := mapSet shared "batch_results" (.list (List.replicate items.length .nil))
      execCalls := 0, prepCalls := 0 }
  | some f =>
    match parTasks f retries items sched (List.replicate items.length .nil) 0 with
    | (.ok vs, k) =>
      { label := .ok BatchCompleteAction
        shared := mapSet shared "batch_results" (.list vs), execCalls := k, prepCalls := 0 }
    | (.error e, k) => { label := .error e, shared := shared, execCalls := k, prepCalls := 0 }

/-- runBatch from node.go: parallel batch when the parallel flag is set,
else sequential batch. -/
def runBatch (n : Node) (shared : GoMap) (data : GoVal) (sched : List Nat) : RunRes :=
  if getBoolParam n.params "parallel" then runBatchParallel n shared data sched
  else runBatchSequential n shared data

/-- Run from node.go: batch mode when the batch flag is set and data is
non-nil (batch true with nil data falls through), else retry mode when
retries is positive, else single execution.  `sched` is the completion
schedule consumed only by the parallel path. -/
def NodeRun (n : Node) (shared : GoMap) (sched : List Nat) : RunRes :=
  if getBoolParam n.params "batch" && !(isNilVal (mapGet n.params "data")) then
    runBatch n shared (mapGet n.params "data") sched
  else if 0 < getIntParam n.params "retries" then
    runWithRetry n shared (getIntParam n.params "retries").toNat
  else
    runSingle n shared

/-!
Orchestrator (the flow file of package Flow).  Nodes are identified by
natural numbers; `succs` gives each node its successor edge map and
`runNode` abstracts what each node's Run returns (adequate for the
traversal claims, which do not depend on the node internals).  Package
Flow contains no warning sink of any kind, so the embedding carries an
explicit warning list that stays empty: it exists to state what the spec
asserts about warnings.
-/

/-- Successor edge maps of the graph, per node id. -/
abbrev SuccMap := Nat → List (String × Nat)

/-- Node.Next from node.go: an empty action registers under the default
action; the successor map entry is replaced on re-registration.  The second
component is the list of warnings emitted, which is always empty: node.go
emits none. -/
def nodeNext (succs : List (String × Nat)) (target : Nat) (action : String) :
    (List (String × Nat)) × List String :=
  let a := if action = "" then DefaultAction else action
  (match succs with
   | [] => [(a, target)]
   | e :: rest =>
     if e.1 = a then (a, target) :: rest
     else e :: ((nodeNext rest target a).1), [])

/-- getNextNode from the flow file: an empty action is normalized to the
default action; the successor registered for the action if any, else the
successor registered for the default action if the action is not itself the
default, else none. -/
def getNextNode (succs : SuccMap) (curr : Nat) (action : String) : Option Nat :=
  let a := if action = "" then DefaultAction else action
  match (succs curr).lookup a with
  | some next => some next
  | none =>
    if a ≠ DefaultAction then (succs curr).lookup DefaultAction
    else none

/-- The traversal loop of Flow.Run, with fuel: from the current node (none
means the loop has exited), carrying the last action.  Returns the final
action label and the warnings emitted (always none), or none when the fuel
runs out, which models a traversal still running after that many steps. -/
def flowRunAux (succs : SuccMap) (runNode : Nat → String) :
    Option Nat → String → Nat → Option (String × List String)
  | none, last, _ => some (last, [])
  | some _, _, 0 => none
  | some curr, _, fuel + 1 =>
    let action := runNode curr
    flowRunAux succs runNode (getNextNode succs curr action) action fuel

/-- Flow.Run from the flow file: traverse from the start node (a nil start
returns the empty last action immediately). -/
def flowRun (succs : SuccMap) (runNode : Nat → String) (start : Option Nat)
    (fuel : Nat) : Option (String × List String) :=
  flowRunAux succs runNode start "" fuel

/-!
Backoff delay computation of runWithRetry (node.go lines 224-232) and
secureRandFloat64 (node.go lines 18-27), modelled at the IEEE-754 binary64
level.  `fl64` rounds a rational to 53 significant bits, to nearest with
ties to even, which is binary64 rounding for every magnitude occurring
below (all far above the subnormal range and far below the overflow
threshold; the exponent is otherwise unconstrained).  The float literals
0.1 and 0.05 are their binary64 values.  math.Pow(2, attempt) is the exact
power of two (its square-and-multiply steps multiply exact powers of two).
The float-to-int64 Duration conversion truncates toward zero and maps
values at or beyond 2^63 to the minimal int64, as on amd64 (the Go
specification leaves out-of-range conversions implementation-specific).
The int64 addition of backoff and jitter wraps as Go integer addition
does.  The computed values are all nonnegative, so truncation toward zero
is floor and fl64 only needs the nonnegative domain.
-/

/-- Round a rational to the nearest integer, ties to even. -/
def rndNE (q : ℚ) : ℤ :=
  if q - ⌊q⌋ < 1/2 then ⌊q⌋
  else if 1/2 < q - ⌊q⌋ then ⌊q⌋ + 1
  else if ⌊q⌋ % 2 = 0 then ⌊q⌋ else ⌊q⌋ + 1

/-- Halve a rational until it drops below 2^53, returning the scaled value
and the number of halvings (fuel-bounded; 1200 steps cover every magnitude
the theorems below admit). -/
def scaleDown : ℕ → ℚ → ℚ × ℕ
  | 0, q => (q, 0)
  | f + 1, q =>
    if q < 2^53 then (q, 0)
    else
      let r := scaleDown f (q/2)
      (r.1, r.2 + 1)

/-- Double a rational until it reaches 2^52, returning the scaled value and
the number of doublings (fuel-bounded). -/
def scaleUp : ℕ → ℚ → ℚ × ℕ
  | 0, q => (q, 0)
  | f + 1, q =>
    if 2^52 ≤ q then (q, 0)
    else
      let r := scaleUp f (q * 2)
      (r.1, r.2 + 1)

/-- Binary64 rounding of a nonnegative rational: scale into [2^52, 2^53),
round the significand to the nearest integer with ties to even, scale
back. -/
def fl64 (x : ℚ) : ℚ :=
  if x ≤ 0 then 0
  else
    let d := scaleDown 1200 x
    let u := scaleUp 1200 d.1
    (rndNE u.1 : ℚ) * 2^d.2 / 2^u.2

/-- The binary64 value of the literal 0.1 in the jitter computation:
0.1 rounds up to 7205759403792794 / 2^56, which is 0.1 * (1 + 2^-54). -/
def c01 : ℚ := 7205759403792794 / 2^56

/-- The binary64 value of the literal 0.05, the fixed fallback jitter
factor returned when the entropy read fails. -/
def c005 : ℚ := 7205759403792794 / 2^57

/-- secureRandFloat64 from node.go: a draw n from [0, 2^53) divided by
2^53 - the int64-to-float64 conversion of n and the division by the exact
power 2^53 are both exact in binary64 - or the binary64 literal 0.05 when
the entropy read (the none case) fails. -/
def secureRandFloat64 : Option Nat → ℚ
  | none => c005
  | some n => ((n % 2 ^ 53 : ℕ) : ℚ) / 2 ^ 53

/-- Go float64-to-Duration conversion for the nonnegative values occurring
here: truncation toward zero (floor on nonnegative values), with the amd64
out-of-range result for values at or beyond 2^63. -/
def durationOfFloat (x : ℚ) : ℤ :=
  if x < 2^63 then ⌊x⌋ else -(2^63)

/-- Two's-complement wrap of an int64 result. -/
def wrap64 (z : ℤ) : ℤ := (z + 2^63) % 2^64 - 2^63

/-- The backoff Duration term of node.go line 227:
time.Duration(float64(retryDelay) * math.Pow(2, attempt)), every float64
operation rounding in binary64. -/
def backoffDelayF (retryDelay : ℤ) (attempt : ℕ) : ℤ :=
  durationOfFloat (fl64 (fl64 (retryDelay : ℚ) * 2^attempt))

/-- The jitter Duration term of node.go line 229:
time.Duration(r * float64(backoffDelay) * 0.1), with the two
multiplications rounding in binary64 (left associated) and 0.1 the
binary64 literal c01. -/
def jitterDelayF (r : ℚ) (backoff : ℤ) : ℤ :=
  durationOfFloat (fl64 (fl64 (r * fl64 (backoff : ℚ)) * c01))

/-- The total slept delay of node.go line 230: the int64 sum of the
backoff and jitter Durations. -/
def totalDelayF (retryDelay : ℤ) (attempt : ℕ) (r : ℚ) : ℤ :=
  wrap64 (backoffDelayF retryDelay attempt +
    jitterDelayF r (backoffDelayF retryDelay attempt))

/-- The three slice shapes that convertToSlice recognizes element-wise
(the match arms of its switch other than the default arm). -/
def isSeqForm : GoVal → Bool
  | .list _ => true
  | .intSlice _ => true
  | .strSlice _ => true
  | _ => false

/-- Two-node graph for the missing-transition analysis: node 0 has a single
successor registered under the default action and no others; node 1 has no
successors. -/
def c3succs : SuccMap := fun n => if n = 0 then [(DefaultAction, 1)] else []

/-- Node behaviors for the graph above: node 0 answers the unregistered
label foo, node 1 answers done. -/
def c3run : Nat → String := fun n => if n = 0 then "foo" else "done"

/-!  Helper lemmas about the retry loop and the batch runners. -/

/-- With an exec function that always succeeds with a pure value, one
per-item batch exec returns that value after exactly one invocation,
whether or not a retry budget is configured. -/
theorem batchItemExec_pure (F : ExecFn) (fval : GoVal → GoVal)
    (hpure : ∀ k x, F k x = .ok (fval x)) (retries : Int) (c : Nat) (item : GoVal) :
    batchItemExec F retries c item = (.ok (fval item), 1) := by
  unfold batchItemExec
  split
  · rename_i hpos
    have h1 : ∃ m, retries.toNat = m + 1 := by
      refine ⟨retries.toNat - 1, ?_⟩
      omega
    obtain ⟨m, hm⟩ := h1
    rw [hm]
    unfold retryAttempts
    rw [hpure]
  · rw [hpure]

/-- With a pure always-succeeding exec function, the sequential item loop
returns the mapped results in input order, one invocation per item. -/
theorem runBatchSeqItems_pure (F : ExecFn) (fval : GoVal → GoVal)
    (hpure : ∀ k x, F k x = .ok (fval x)) (retries : Int) :
    ∀ (items : List GoVal) (c : Nat),
      runBatchSeqItems F retries items c = (.ok (items.map fval), items.length) := by
  intro items
  induction items with
  | nil => intro c; rfl
  | cons item rest ih =>
    intro c
    unfold runBatchSeqItems
    rw [batchItemExec_pure F fval hpure retries c item]
    simp only [ih]
    simp [Nat.add_comm]

/-- With an exec function that fails on every invocation, the retry loop
makes exactly the budgeted number of attempts and ends with the error of
the last one. -/
theorem retryAttempts_allFail (F : ExecFn) (errs : Nat → GoVal → String)
    (herr : ∀ k x, F k x = .error (errs k x)) (x : GoVal) :
    ∀ (rem c : Nat), 0 < rem →
      retryAttempts F x c rem = (.error (errs (c + rem - 1) x), rem) := by
  intro rem
  induction rem with
  | zero => intro c h; omega
  | succ m ih =>
    intro c _
    unfold retryAttempts
    rw [herr]
    dsimp only
    by_cases hm : m = 0
    · subst hm
      simp
    · rw [if_neg hm, ih (c + 1) (by omega)]
      have : c + 1 + m - 1 = c + (m + 1) - 1 := by omega
      rw [this]

/-- With an exec function that fails on invocations before index R-1 and
succeeds at index R-1, a retry loop whose remaining budget reaches exactly
R ends successfully after using the whole budget. -/
theorem retryAttempts_lastSucceeds (F : ExecFn) (errs : Nat → GoVal → String)
    (v : GoVal → GoVal) (R : Nat)
    (hfail : ∀ k x, k < R - 1 → F k x = .error (errs k x))
    (hsucc : ∀ x, F (R - 1) x = .ok (v x)) (x : GoVal) :
    ∀ (rem c : Nat), c + rem = R → 0 < rem →
      retryAttempts F x c rem = (.ok (v x), rem) := by
  intro rem
  induction rem with
  | zero => intro c h h0; omega
  | succ m ih =>
    intro c hcr _
    unfold retryAttempts
    by_cases hc : c < R - 1
    · rw [hfail c x hc]
      dsimp only
      have hm : m ≠ 0 := by omega
      rw [if_neg hm, ih (c + 1) (by omega) (by omega)]
    · have hceq : c = R - 1 := by omega
      have hm0 : m = 0 := by omega
      subst hm0
      rw [hceq, hsucc]

/-- With a pure always-succeeding exec function, the task pool succeeds and
amounts to one positional write per scheduled in-range index, with one exec
invocation per scheduled index. -/
theorem parTasks_pure (F : ExecFn) (fval : GoVal → GoVal)
    (hpure : ∀ k x, F k x = .ok (fval x)) (retries : Int) (items : List GoVal) :
    ∀ (sched : List Nat) (acc : List GoVal) (c : Nat),
      (∀ i ∈ sched, i < items.length) →
      parTasks F retries items sched acc c =
        (.ok (sched.foldl (fun a i => a.set i (fval (items.getD i .nil))) acc),
         sched.length) := by
  intro sched
  induction sched with
  | nil => intro acc c _; rfl
  | cons i rest ih =>
    intro acc c hmem
    have hi : i < items.length := hmem i (List.mem_cons_self i rest)
    have hget : items[i]? = some (items.getD i .nil) := by
      rw [List.getElem?_eq_getElem hi, List.getD_eq_getElem?_getD,
        List.getElem?_eq_getElem hi]
      rfl
    unfold parTasks
    rw [hget]
    dsimp only
    rw [batchItemExec_pure F fval hpure retries c (items.getD i .nil)]
    dsimp only
    rw [ih (acc.set i (fval (items.getD i .nil))) (c + 1)
      (fun j hj => hmem j (List.mem_cons_of_mem i hj))]
    simp [Nat.add_comm]

/-- Positional reading of a fold of positional writes: a slot covered by
some scheduled in-range index holds the written value for that index, every
other slot is untouched. -/
theorem foldl_set_getElem (g : Nat → GoVal) :
    ∀ (sched : List Nat) (acc : List GoVal),
      (sched.foldl (fun a i => a.set i (g i)) acc).length = acc.length ∧
      ∀ j, (sched.foldl (fun a i => a.set i (g i)) acc)[j]? =
        if j ∈ sched ∧ j < acc.length then some (g j) else acc[j]? := by
  intro sched
  induction sched with
  | nil =>
    intro acc
    refine ⟨rfl, fun j => ?_⟩
    simp
  | cons i rest ih =>
    intro acc
    obtain ⟨ihlen, ihget⟩ := ih (acc.set i (g i))
    rw [List.foldl_cons]
    refine ⟨by rw [ihlen, List.length_set], fun j => ?_⟩
    rw [ihget j, List.length_set]
    by_cases hjr : j ∈ rest
    · by_cases hlt : j < acc.length
      · simp [hjr, hlt, List.mem_cons]
      · have hnone : (acc.set i (g i))[j]? = acc[j]? := by
          rw [List.getElem?_eq_none (by rw [List.length_set]; omega),
            List.getElem?_eq_none (by omega)]
        simp [hjr, hlt, List.mem_cons, hnone]
    · by_cases hji : j = i
      · subst hji
        by_cases hlt : j < acc.length
        · simp [hjr, hlt, List.mem_cons, List.getElem?_set_self hlt]
        · have hnone : (acc.set j (g j))[j]? = acc[j]? := by
            rw [List.getElem?_eq_none (by rw [List.length_set]; omega),
              List.getElem?_eq_none (by omega)]
          simp [hjr, hlt, hnone]
      · simp [hjr, hji, List.mem_cons, List.getElem?_set_ne (fun h => hji h.symm)]

/-- Under any completion schedule that is a permutation of the item index
range, the fold of positional writes over the nil pre-sized results slice
yields exactly the in-order mapped results. -/
theorem foldl_set_perm_map (fval : GoVal → GoVal) (items : List GoVal)
    (sched : List Nat) (hsched : sched.Perm (List.range items.length)) :
    sched.foldl (fun a i => a.set i (fval (items.getD i .nil)))
      (List.replicate items.length GoVal.nil) = items.map fval := by
  obtain ⟨hlen, hget⟩ := foldl_set_getElem (fun i => fval (items.getD i .nil)) sched
    (List.replicate items.length GoVal.nil)
  apply List.ext_getElem?
  intro j
  rw [hget j]
  have hmem : j ∈ sched ↔ j < items.length := by
    rw [hsched.mem_iff, List.mem_range]
  by_cases hj : j < items.length
  · rw [if_pos ⟨hmem.mpr hj, by simpa using hj⟩]
    rw [List.getElem?_map, List.getElem?_eq_getElem hj]
    simp [List.getD_eq_getElem?_getD, List.getElem?_eq_getElem hj]
  · rw [if_neg (by simp [hmem, hj])]
    rw [List.getElem?_eq_none (by simpa using hj),
      List.getElem?_eq_none (by simpa using hj)]

/-- C1: for every data sequence S and pure never-failing exec function f,
sequential batch execution stores exactly the results sequence
`[f(S[0]), ..., f(S[N-1])]` in input order into the shared state under the
reserved batch-results key, returns the batch-completion label, and invokes
exec once per item; for the empty S it stores an empty results sequence and
never invokes exec. -/
theorem c1_sequential_batch_pure (n : Node) (shared : GoMap) (S : List GoVal)
    (F : ExecFn) (fval : GoVal → GoVal)
    (hexec : n.execFunc = some F) (hpure : ∀ k x, F k x = .ok (fval x)) :
    runBatchSequential n shared (.list S) =
      { label := .ok BatchCompleteAction
        shared := mapSet shared "batch_results" (.list (S.map fval))
        execCalls := S.length
        prepCalls := 0 } := by
  unfold runBatchSequential
  rw [hexec]
  dsimp only
  simp only [convertToSlice]
  rw [runBatchSeqItems_pure F fval hpure _ S 0]

/-- C1 witness: doubling over a two-item batch. -/
theorem c1_witness :
    runBatchSequential
        { params := [], execFunc := some (fun _ x => .ok (GoVal.list [x])),
          prepFunc := none, postFunc := none }
        [] (.list [.int 1, .int 2]) =
      { label := .ok BatchCompleteAction
        shared := mapSet [] "batch_results"
          (.list [.list [.int 1], .list [.int 2]])
        execCalls := 2
        prepCalls := 0 } :=
  c1_sequential_batch_pure _ _ _ _ (fun x => GoVal.list [x]) rfl (fun _ _ => rfl)

/-- C2: for every data sequence S, positive parallel limit, and pure
never-failing exec function, parallel batch execution produces exactly the
same run outcome as sequential batch execution - same stored ordered
results under the batch-results key, same completion label, same number of
exec invocations - for every completion schedule of the concurrent
per-item tasks. -/
theorem c2_parallel_matches_sequential (n : Node) (shared : GoMap) (S : List GoVal)
    (sched : List Nat) (F : ExecFn) (fval : GoVal → GoVal)
    (hexec : n.execFunc = some F) (hpure : ∀ k x, F k x = .ok (fval x))
    (hlimit : 0 < getIntParam n.params "parallel_limit")
    (hsched : sched.Perm (List.range S.length)) :
    runBatchParallel n shared (.list S) sched = runBatchSequential n shared (.list S) := by
  unfold runBatchParallel runBatchSequential
  rw [hexec]
  dsimp only
  simp only [convertToSlice]
  rw [runBatchSeqItems_pure F fval hpure _ S 0]
  have hvalid : ∀ i ∈ sched, i < S.length := by
    intro i hi
    have := hsched.mem_iff.mp hi
    simpa [List.mem_range] using this
  rw [parTasks_pure F fval hpure _ S sched _ 0 hvalid]
  dsimp only
  rw [foldl_set_perm_map fval S sched hsched]
  have hlen : sched.length = S.length := by
    rw [hsched.length_eq, List.length_range]
  rw [hlen]

/-- C2 witness: a two-item batch with the tasks completing in reversed
order still matches sequential execution. -/
theorem c2_witness :
    runBatchParallel
        { params := [("parallel_limit", .int 1)],
          execFunc := some (fun _ x => .ok (GoVal.list [x])),
          prepFunc := none, postFunc := none }
        [] (.list [.int 1, .int 2]) [1, 0] =
      runBatchSequential
        { params := [("parallel_limit", .int 1)],
          execFunc := some (fun _ x => .ok (GoVal.list [x])),
          prepFunc := none, postFunc := none }
        [] (.list [.int 1, .int 2]) :=
  c2_parallel_matches_sequential _ _ _ _ _ (fun x => GoVal.list [x]) rfl
    (fun _ _ => rfl) (by decide) (by decide)

/-- C4: with retries = R > 0 configured, no batch, and an exec function
that fails on every invocation, Run invokes exec exactly R times and then
fails fatally with the last underlying error; no result label is returned
and the shared state is untouched. -/
theorem c4_retry_exhaustion (n : Node) (shared : GoMap) (sched : List Nat)
    (F : ExecFn) (errs : Nat → GoVal → String) (R : Nat)
    (hexec : n.execFunc = some F)
    (herr : ∀ k x, F k x = .error (errs k x))
    (hbatch : getBoolParam n.params "batch" = false)
    (hret : getIntParam n.params "retries" = (R : Int))
    (hR : 0 < R) :
    NodeRun n shared sched =
      { label := .error (errs (R - 1) (prepValue n shared))
        shared := shared
        execCalls := R
        prepCalls := prepCount n } := by
  unfold NodeRun
  simp only [hbatch, Bool.false_and, Bool.false_eq_true, if_false, hret]
  rw [if_pos (by exact_mod_cast hR)]
  rw [Int.toNat_natCast]
  unfold runWithRetry
  rw [hexec]
  dsimp only
  rw [retryAttempts_allFail F errs herr (prepValue n shared) R 0 hR]
  rw [Nat.zero_add]

/-- C4 witness: two configured retries of an always-failing exec make
exactly two invocations and end in the error of the second attempt. -/
theorem c4_witness :
    NodeRun
        { params := [("retries", .int 2)],
          execFunc := some (fun k _ => .error (toString k)),
          prepFunc := none, postFunc := none }
        [] [] =
      { label := .error "1", shared := [], execCalls := 2, prepCalls := 0 } :=
  c4_retry_exhaustion _ _ _ _ (fun k _ => toString k) 2 rfl (fun _ _ => rfl)
    rfl rfl (by decide)

/-- C5: with retries = R > 0 configured, no batch, a prepare function, and
an exec function that fails on exactly its first R-1 invocations and
succeeds on the R-th, Run invokes exec exactly R times, invokes prepare
exactly once, and returns the label derived from the successful result
(the postprocess output when a post function is set, else the stringified
result - the two cases of postLabel). -/
theorem c5_retry_success (n : Node) (shared : GoMap) (sched : List Nat)
    (F : ExecFn) (errs : Nat → GoVal → String) (v : GoVal → GoVal)
    (p : GoMap → GoVal) (R : Nat)
    (hexec : n.execFunc = some F)
    (hprep : n.prepFunc = some p)
    (hfail : ∀ k x, k < R - 1 → F k x = .error (errs k x))
    (hsucc : ∀ x, F (R - 1) x = .ok (v x))
    (hbatch : getBoolParam n.params "batch" = false)
    (hret : getIntParam n.params "retries" = (R : Int))
    (hR : 0 < R) :
    NodeRun n shared sched =
      { label := .ok (postLabel n shared (p shared) (v (p shared)))
        shared := shared
        execCalls := R
        prepCalls := 1 } := by
  unfold NodeRun
  simp only [hbatch, Bool.false_and, Bool.false_eq_true, if_false, hret]
  rw [if_pos (by exact_mod_cast hR)]
  rw [Int.toNat_natCast]
  unfold runWithRetry
  rw [hexec]
  dsimp only
  rw [retryAttempts_lastSucceeds F errs v R hfail hsucc (prepValue n shared) R 0
    (Nat.zero_add R) hR]
  dsimp only
  unfold prepValue prepCount
  rw [hprep]

/-- C5 witness: three configured retries, failures on the first two
invocations, success on the third: three invocations, one prepare, and the
label of the successful result. -/
theorem c5_witness :
    NodeRun
        { params := [("retries", .int 3)],
          execFunc := some (fun k _ => if k < 2 then .error "fail" else .ok (.str "won")),
          prepFunc := some (fun _ => .int 7), postFunc := none }
        [] [] =
      { label := .ok "won", shared := [], execCalls := 3, prepCalls := 1 } :=
  c5_retry_success _ _ _ _ (fun _ _ => "fail") (fun _ => .str "won") (fun _ => .int 7) 3
    rfl rfl (fun k x hk => by simp [if_pos hk]) (fun x => rfl) rfl rfl (by decide)

/-- C6: Run selects its execution strategy from the current parameters with
this priority: batch flag set and non-nil data gives batch mode (parallel
batch when the parallel flag is also set, else sequential batch); otherwise
positive retries gives retry mode; otherwise plain single execution - so a
set batch flag with nil data falls through to retry or single mode. -/
theorem c6_run_dispatch (n : Node) (shared : GoMap) (sched : List Nat) :
    NodeRun n shared sched =
      if getBoolParam n.params "batch" && !(isNilVal (mapGet n.params "data")) then
        (if getBoolParam n.params "parallel" then
          runBatchParallel n shared (mapGet n.params "data") sched
        else
          runBatchSequential n shared (mapGet n.params "data"))
      else if 0 < getIntParam n.params "retries" then
        runWithRetry n shared (getIntParam n.params "retries").toNat
      else
        runSingle n shared := by
  unfold NodeRun runBatch
  rfl

/-- Looking up a nonempty action in the successor map returned by nodeNext
finds the just-registered target, also when the action was already bound. -/
theorem nodeNext_lookup (t : Nat) :
    ∀ (succs : List (String × Nat)) (a : String), a ≠ "" →
      ((nodeNext succs t a).1).lookup a = some t := by
  intro succs
  induction succs with
  | nil =>
    intro a ha
    simp [nodeNext, ha, List.lookup]
  | cons e rest ih =>
    intro a ha
    obtain ⟨k, v⟩ := e
    unfold nodeNext
    simp only [if_neg ha]
    by_cases he : k = a
    · simp [he, List.lookup]
    · have hne2 : (a == k) = false := by
        rw [beq_eq_false_iff_ne]
        exact fun h => he h.symm
      simp only [if_neg he]
      simpa [List.lookup, hne2] using ih a ha

/-- nodeNext never emits a warning: its warning component is always empty. -/
theorem nodeNext_warnings (succs : List (String × Nat)) (target : Nat) (action : String) :
    (nodeNext succs target action).2 = [] := by
  cases succs with
  | nil => rfl
  | cons e rest => rfl

/-- Registering with the empty action is the same as registering with the
default action. -/
theorem nodeNext_empty_action (target : Nat) (succs : List (String × Nat)) :
    nodeNext succs target "" = nodeNext succs target DefaultAction := by
  cases succs with
  | nil => rfl
  | cons e rest => rfl

/-- C8 counterexample: re-registering the already-bound label go replaces
the target but the warning list stays empty - node.go emits no overwrite
warning, contradicting the claim. -/
theorem c8_counterexample :
    nodeNext [("go", 1)] 2 "go" = ([("go", 2)], []) := rfl

/-- C8 as amended: registering with the empty label registers under the
reserved default label, and re-registering an already-registered label on
the same unit replaces the old target, silently - no warning of any kind
is emitted (node.go has no warning mechanism). -/
theorem c8_next_semantics (succs : List (String × Nat)) (target : Nat) (action : String) :
    nodeNext succs target "" = nodeNext succs target DefaultAction ∧
    (nodeNext succs target action).2 = [] ∧
    ((nodeNext succs target action).1).lookup
        (if action = "" then DefaultAction else action) = some target := by
  refine ⟨nodeNext_empty_action target succs, nodeNext_warnings succs target action, ?_⟩
  by_cases ha : action = ""
  · subst ha
    rw [if_pos rfl, nodeNext_empty_action target succs]
    exact nodeNext_lookup target succs DefaultAction (by simp [DefaultAction])
  · rw [if_neg ha]
    exact nodeNext_lookup target succs action ha

/-- C3 counterexample: node 0 returns the unregistered label foo while
having one successor (under the default label); the claim predicts a
warning naming foo and termination with foo, but the traversal follows the
default successor, returns done, and emits no warning. -/
theorem c3_counterexample :
    flowRun c3succs c3run (some 0) 10 = some ("done", []) ∧ "done" ≠ "foo" :=
  ⟨rfl, by decide⟩

/-- C3 as amended: when the current node returns a nonempty label with no
registered successor and also no successor under the default label, the
traversal terminates returning that label, and no warning is emitted (the
orchestrator has no warning mechanism; when a default successor exists the
traversal instead continues through it). -/
theorem c3_missing_label_behavior (succs : SuccMap) (runNode : Nat → String)
    (node : Nat) (last : String) (fuel : Nat) (lab : String)
    (hrun : runNode node = lab) (hne : lab ≠ "")
    (hmiss : (succs node).lookup lab = none)
    (hdef : (succs node).lookup DefaultAction = none)
    (hhas : succs node ≠ []) :
    flowRunAux succs runNode (some node) last (fuel + 1) = some (lab, []) := by
  have hnext : getNextNode succs node lab = none := by
    unfold getNextNode
    simp only [if_neg hne, hmiss, hdef]
    split <;> rfl
  unfold flowRunAux
  dsimp only
  rw [hrun, hnext]
  cases fuel <;> rfl

/-- C3 witness: a single node with one successor under the label go,
returning the unregistered label foo: the run ends with foo and no warning. -/
theorem c3_witness :
    flowRunAux (fun _ => [("go", 5)]) (fun _ => "foo") (some 0) "" 1 = some ("foo", []) :=
  c3_missing_label_behavior (fun _ => [("go", 5)]) (fun _ => "foo") 0 "" 0 "foo"
    rfl (by decide) rfl rfl (by simp)

/-- C9: the item conversion treats exactly three representations as
sequences - value slices, int slices and string slices, each converted
element by element in order - and wraps every other value, such as a bool
slice, as a single-item sequence. -/
theorem c9_convertToSlice_cases :
    (∀ xs : List GoVal, convertToSlice (.list xs) = xs) ∧
    (∀ ns : List Int, convertToSlice (.intSlice ns) = ns.map GoVal.int) ∧
    (∀ ss : List String, convertToSlice (.strSlice ss) = ss.map GoVal.str) ∧
    (∀ v : GoVal, isSeqForm v = false → convertToSlice v = [v]) := by
  refine ⟨fun _ => rfl, fun _ => rfl, fun _ => rfl, fun v hv => ?_⟩
  cases v <;> simp_all [isSeqForm, convertToSlice]

/-- C9 witness: a bool slice is wrapped as one single batch item instead of
being split into its elements. -/
theorem c9_witness :
    convertToSlice (.boolSlice [true, false]) = [.boolSlice [true, false]] :=
  c9_convertToSlice_cases.2.2.2 (.boolSlice [true, false]) rfl

/-- C10: on a nonempty data sequence with no exec function set, sequential
batch stores an empty results sequence under the batch-results key while
parallel batch stores a nil-filled sequence of the input length; both
return the batch-completion label, and the two stored results differ. -/
theorem c10_no_exec_batch_divergence (n : Node) (shared : GoMap) (S : List GoVal)
    (sched : List Nat) (hexec : n.execFunc = none) (hS : S ≠ []) :
    runBatchSequential n shared (.list S) =
      { label := .ok BatchCompleteAction
        shared := mapSet shared "batch_results" (.list [])
        execCalls := 0, prepCalls := 0 } ∧
    runBatchParallel n shared (.list S) sched =
      { label := .ok BatchCompleteAction
        shared := mapSet shared "batch_results" (.list (List.replicate S.length .nil))
        execCalls := 0, prepCalls := 0 } ∧
    GoVal.list [] ≠ GoVal.list (List.replicate S.length .nil) := by
  refine ⟨?_, ?_, ?_⟩
  · unfold runBatchSequential
    rw [hexec]
  · unfold runBatchParallel
    rw [hexec]
    rfl
  · intro h
    injection h with h3
    cases S with
    | nil => exact hS rfl
    | cons a t => simp [List.replicate] at h3

/-- C10 witness: a one-item batch with no exec function: sequential stores
an empty sequence, parallel stores one nil entry. -/
theorem c10_witness :
    runBatchSequential { params := [], execFunc := none, prepFunc := none, postFunc := none }
        [] (.list [.int 1]) =
      { label := .ok BatchCompleteAction
        shared := mapSet [] "batch_results" (.list [])
        execCalls := 0, prepCalls := 0 } ∧
    runBatchParallel { params := [], execFunc := none, prepFunc := none, postFunc := none }
        [] (.list [.int 1]) [0] =
      { label := .ok BatchCompleteAction
        shared := mapSet [] "batch_results" (.list [.nil])
        execCalls := 0, prepCalls := 0 } ∧
    GoVal.list [] ≠ GoVal.list [.nil] :=
  c10_no_exec_batch_divergence
    { params := [], execFunc := none, prepFunc := none, postFunc := none }
    [] [.int 1] [0] rfl (by simp)

/-- Unfolding step of scaleDown at successor fuel. -/
theorem scaleDown_succ (f : ℕ) (q : ℚ) :
    scaleDown (f + 1) q =
      if q < 2^53 then (q, 0)
      else ((scaleDown f (q/2)).1, (scaleDown f (q/2)).2 + 1) := rfl

/-- Unfolding step of scaleUp at successor fuel. -/
theorem scaleUp_succ (f : ℕ) (q : ℚ) :
    scaleUp (f + 1) q =
      if 2^52 ≤ q then (q, 0)
      else ((scaleUp f (q * 2)).1, (scaleUp f (q * 2)).2 + 1) := rfl

/-- Rounding to nearest is at most one half above the argument. -/
theorem rndNE_le (q : ℚ) : (rndNE q : ℚ) ≤ q + 1/2 := by
  unfold rndNE
  have h0 := Int.floor_le q
  have h1 := Int.lt_floor_add_one q
  split
  · linarith
  · split
    · push_cast
      linarith
    · split <;> push_cast <;> linarith

/-- Rounding to nearest is at most one half below the argument. -/
theorem rndNE_ge (q : ℚ) : q - 1/2 ≤ (rndNE q : ℚ) := by
  unfold rndNE
  have h0 := Int.floor_le q
  have h1 := Int.lt_floor_add_one q
  split
  · rename_i h
    linarith
  · split
    · push_cast
      linarith
    · split <;> push_cast <;> linarith

/-- Rounding an integer returns it unchanged. -/
theorem rndNE_intCast (z : ℤ) : rndNE (z : ℚ) = z := by
  unfold rndNE
  rw [Int.floor_intCast]
  norm_num

/-- An argument already below the threshold is not scaled down. -/
theorem scaleDown_of_lt (f : ℕ) (q : ℚ) (h : q < 2^53) : scaleDown f q = (q, 0) := by
  cases f with
  | zero => rfl
  | succ f => rw [scaleDown_succ, if_pos h]

/-- scaleDown reaches a value in (0, 2^53), equal to the argument divided by
the recorded power of two, and at least 2^52 whenever any halving occurred. -/
theorem scaleDown_spec : ∀ (f : ℕ) (q : ℚ), 0 < q → q < 2^53 * 2^f →
    0 < (scaleDown f q).1 ∧ (scaleDown f q).1 < 2^53 ∧
    q = (scaleDown f q).1 * 2^(scaleDown f q).2 ∧
    ((scaleDown f q).2 = 0 ∨ 2^52 ≤ (scaleDown f q).1) := by
  intro f
  induction f with
  | zero =>
    intro q hq hlt
    simp only [scaleDown]
    exact ⟨hq, by simpa using hlt, by ring, Or.inl (by trivial)⟩
  | succ f ih =>
    intro q hq hlt
    rw [scaleDown_succ]
    by_cases h : q < 2^53
    · rw [if_pos h]
      exact ⟨hq, h, by ring, Or.inl (by trivial)⟩
    · rw [if_neg h]
      push_neg at h
      have hlt2 : q / 2 < 2^53 * 2^f := by
        have h5 : (2:ℚ)^53 * 2^(f+1) = 2^53 * 2^f * 2 := by
          rw [pow_succ 2 f]
          ring
        rw [h5] at hlt
        linarith
      obtain ⟨h1, h2, h3, h4⟩ := ih (q/2) (by positivity) hlt2
      refine ⟨h1, h2, ?_, Or.inr ?_⟩
      · show q = (scaleDown f (q/2)).1 * 2^((scaleDown f (q/2)).2 + 1)
        rw [pow_succ 2 (scaleDown f (q/2)).2]
        linarith [h3]
      · show 2^52 ≤ (scaleDown f (q/2)).1
        rcases h4 with h4 | h4
        · have h8 : q/2 = (scaleDown f (q/2)).1 := by
            rw [h4] at h3
            simpa using h3
          linarith
        · exact h4

/-- scaleUp reaches a value in [2^52, 2^53), equal to the argument times the
recorded power of two. -/
theorem scaleUp_spec : ∀ (f : ℕ) (q : ℚ), 0 < q → q < 2^53 → 2^52 ≤ q * 2^f →
    2^52 ≤ (scaleUp f q).1 ∧ (scaleUp f q).1 < 2^53 ∧
    (scaleUp f q).1 = q * 2^(scaleUp f q).2 := by
  intro f
  induction f with
  | zero =>
    intro q hq hub hlb
    simp only [scaleUp]
    exact ⟨by simpa using hlb, hub, by ring⟩
  | succ f ih =>
    intro q hq hub hlb
    rw [scaleUp_succ]
    by_cases h : 2^52 ≤ q
    · rw [if_pos h]
      exact ⟨h, hub, by ring⟩
    · rw [if_neg h]
      push_neg at h
      have hlb2 : 2^52 ≤ (q*2) * 2^f := by
        have h5 : q * 2^(f+1) = q * 2 * 2^f := by
          rw [pow_succ 2 f]
          ring
        rw [h5] at hlb
        exact hlb
      obtain ⟨h1, h2, h3⟩ := ih (q*2) (by positivity) (by linarith) hlb2
      refine ⟨h1, h2, ?_⟩
      show (scaleUp f (q*2)).1 = q * 2^((scaleUp f (q*2)).2 + 1)
      rw [h3, pow_succ 2 (scaleUp f (q*2)).2]
      ring

/-- scaleDown preserves positivity. -/
theorem scaleDown_pos : ∀ (f : ℕ) (q : ℚ), 0 < q → 0 < (scaleDown f q).1 := by
  intro f
  induction f with
  | zero => intro q hq; exact hq
  | succ f ih =>
    intro q hq
    rw [scaleDown_succ]
    by_cases h : q < 2^53
    · rw [if_pos h]; exact hq
    · rw [if_neg h]
      exact ih (q/2) (by positivity)

/-- scaleUp preserves positivity. -/
theorem scaleUp_pos : ∀ (f : ℕ) (q : ℚ), 0 < q → 0 < (scaleUp f q).1 := by
  intro f
  induction f with
  | zero => intro q hq; exact hq
  | succ f ih =>
    intro q hq
    rw [scaleUp_succ]
    by_cases h : 2^52 ≤ q
    · rw [if_pos h]; exact hq
    · rw [if_neg h]
      exact ih (q*2) (by positivity)

/-- Rounding a nonnegative rational to nearest stays nonnegative. -/
theorem rndNE_nonneg (q : ℚ) (h : 0 ≤ q) : 0 ≤ rndNE q := by
  have h1 := rndNE_ge q
  have h2 : (-1 : ℚ) < (rndNE q : ℚ) := by linarith
  have h3 : (-1 : ℤ) < rndNE q := by exact_mod_cast h2
  omega

/-- Characterization of fl64 on arguments in the supported magnitude range:
the rounding of the scaled significand in [2^52, 2^53), undoing the
scaling. -/
theorem fl64_spec (x : ℚ) (hlb : 1/2^1000 ≤ x) (hub : x ≤ 2^1000) :
    ∃ m : ℚ, ∃ t s : ℕ, 2^52 ≤ m ∧ m < 2^53 ∧ x = m * 2^t / 2^s ∧
      fl64 x = (rndNE m : ℚ) * 2^t / 2^s := by
  have hx : 0 < x := lt_of_lt_of_le (by positivity) hlb
  have hxlt : x < 2^53 * 2^1200 := by
    calc x ≤ 2^1000 := hub
      _ < 2^53 * 2^1200 := by norm_num
  obtain ⟨d1, d2, d3, d4⟩ := scaleDown_spec 1200 x hx hxlt
  have hd_lb : 2^52 ≤ (scaleDown 1200 x).1 * 2^1200 := by
    rcases d4 with h4 | h4
    · have h5 : (scaleDown 1200 x).1 = x := by
        rw [h4] at d3
        simpa using d3.symm
      rw [h5]
      calc (2:ℚ)^52 ≤ (1/2^1000) * 2^1200 := by norm_num
        _ ≤ x * 2^1200 := by gcongr
    · have h6 : (1:ℚ) ≤ 2^1200 := by norm_num
      calc (2:ℚ)^52 ≤ (scaleDown 1200 x).1 := h4
        _ = (scaleDown 1200 x).1 * 1 := by ring
        _ ≤ (scaleDown 1200 x).1 * 2^1200 := mul_le_mul_of_nonneg_left h6 d1.le
  obtain ⟨u1, u2, u3⟩ := scaleUp_spec 1200 (scaleDown 1200 x).1 d1 d2 hd_lb
  refine ⟨(scaleUp 1200 (scaleDown 1200 x).1).1, (scaleDown 1200 x).2,
    (scaleUp 1200 (scaleDown 1200 x).1).2, u1, u2, ?_, ?_⟩
  · rw [eq_div_iff (by positivity)]
    calc x * 2^((scaleUp 1200 (scaleDown 1200 x).1).2)
        = ((scaleDown 1200 x).1 * 2^((scaleDown 1200 x).2)) *
            2^((scaleUp 1200 (scaleDown 1200 x).1).2) := by rw [← d3]
      _ = ((scaleDown 1200 x).1 * 2^((scaleUp 1200 (scaleDown 1200 x).1).2)) *
            2^((scaleDown 1200 x).2) := by ring
      _ = (scaleUp 1200 (scaleDown 1200 x).1).1 * 2^((scaleDown 1200 x).2) := by
            rw [← u3]
  · unfold fl64
    rw [if_neg (not_le.mpr hx)]

/-- fl64 is nonnegative. -/
theorem fl64_nonneg (x : ℚ) : 0 ≤ fl64 x := by
  unfold fl64
  split
  · exact le_refl 0
  · rename_i h
    push_neg at h
    have h1 : 0 < (scaleUp 1200 (scaleDown 1200 x).1).1 :=
      scaleUp_pos 1200 _ (scaleDown_pos 1200 x h)
    have h2 : (0:ℤ) ≤ rndNE (scaleUp 1200 (scaleDown 1200 x).1).1 :=
      rndNE_nonneg _ h1.le
    have h3 : (0:ℚ) ≤ (rndNE (scaleUp 1200 (scaleDown 1200 x).1).1 : ℚ) := by
      exact_mod_cast h2
    positivity

/-- fl64 of zero is zero. -/
theorem fl64_zero : fl64 0 = 0 := by
  unfold fl64
  rw [if_pos (le_refl (0:ℚ))]

/-- Relative error of fl64, upper side: at most one part in 2^53 above. -/
theorem fl64_le_mul (x : ℚ) (hlb : 1/2^1000 ≤ x) (hub : x ≤ 2^1000) :
    fl64 x ≤ x * (1 + 1/2^53) := by
  obtain ⟨m, t, s, hm1, hm2, hx, hfl⟩ := fl64_spec x hlb hub
  rw [hfl, hx]
  have key : (rndNE m : ℚ) ≤ m * (1 + 1/2^53) := by
    have h1 := rndNE_le m
    nlinarith
  calc (rndNE m : ℚ) * 2^t / 2^s ≤ (m * (1 + 1/2^53)) * 2^t / 2^s := by gcongr
    _ = m * 2^t / 2^s * (1 + 1/2^53) := by ring

/-- Relative error of fl64, lower side: at most one part in 2^53 below. -/
theorem fl64_ge_mul (x : ℚ) (hlb : 1/2^1000 ≤ x) (hub : x ≤ 2^1000) :
    x * (1 - 1/2^53) ≤ fl64 x := by
  obtain ⟨m, t, s, hm1, hm2, hx, hfl⟩ := fl64_spec x hlb hub
  rw [hfl, hx]
  have key : m * (1 - 1/2^53) ≤ (rndNE m : ℚ) := by
    have h1 := rndNE_ge m
    nlinarith
  calc m * 2^t / 2^s * (1 - 1/2^53) = (m * (1 - 1/2^53)) * 2^t / 2^s := by ring
    _ ≤ (rndNE m : ℚ) * 2^t / 2^s := by gcongr

/-- fl64 represents positive integers below 2^53 exactly. -/
theorem fl64_intCast_exact (z : ℤ) (h0 : 0 < z) (h1 : z < 2^53) :
    fl64 (z : ℚ) = z := by
  have hzq : (0:ℚ) < (z:ℚ) := by exact_mod_cast h0
  have hzlt : (z:ℚ) < 2^53 := by exact_mod_cast h1
  unfold fl64
  rw [if_neg (not_le.mpr hzq)]
  rw [scaleDown_of_lt 1200 (z:ℚ) hzlt]
  dsimp only
  have hlb : 2^52 ≤ (z:ℚ) * 2^1200 := by
    have h2 : (1:ℚ) ≤ (z:ℚ) := by exact_mod_cast h0
    calc (2:ℚ)^52 ≤ 1 * 2^1200 := by norm_num
      _ ≤ (z:ℚ) * 2^1200 := by gcongr
  obtain ⟨u1, u2, u3⟩ := scaleUp_spec 1200 (z:ℚ) hzq hzlt hlb
  have hcast : (scaleUp 1200 (z:ℚ)).1 = ((z * 2^(scaleUp 1200 (z:ℚ)).2 : ℤ) : ℚ) := by
    rw [u3]
    push_cast
    ring
  rw [hcast, rndNE_intCast]
  push_cast
  field_simp

/-- Both draw branches of secureRandFloat64 are nonnegative. -/
theorem secureRandFloat64_nonneg (e : Option ℕ) : 0 ≤ secureRandFloat64 e := by
  cases e with
  | none => norm_num [secureRandFloat64, c005]
  | some n =>
    unfold secureRandFloat64
    positivity

/-- Both draw branches of secureRandFloat64 are at most 1 - 2^-53, the
largest binary64 value below one that the draw can produce. -/
theorem secureRandFloat64_le (e : Option ℕ) :
    secureRandFloat64 e ≤ 1 - 1/2^53 := by
  cases e with
  | none => norm_num [secureRandFloat64, c005]
  | some n =>
    unfold secureRandFloat64
    have h1 : (n % 2^53 : ℕ) ≤ 2^53 - 1 := by
      have := Nat.mod_lt n (show 0 < 2^53 by positivity)
      omega
    have h2 : ((n % 2^53 : ℕ) : ℚ) ≤ (2:ℚ)^53 - 1 := by
      have h3 : ((n % 2^53 : ℕ) : ℚ) ≤ ((2^53 - 1 : ℕ) : ℚ) := by exact_mod_cast h1
      calc ((n % 2^53 : ℕ) : ℚ) ≤ ((2^53 - 1 : ℕ) : ℚ) := h3
        _ = (2:ℚ)^53 - 1 := by norm_num
    calc ((n % 2^53 : ℕ) : ℚ) / 2^53 ≤ ((2:ℚ)^53 - 1) / 2^53 := by gcongr
      _ = 1 - 1/2^53 := by norm_num

/-- A nonzero draw of secureRandFloat64 is at least 2^-56. -/
theorem secureRandFloat64_lb (e : Option ℕ) (h : secureRandFloat64 e ≠ 0) :
    1/2^56 ≤ secureRandFloat64 e := by
  cases e with
  | none => norm_num [secureRandFloat64, c005]
  | some n =>
    simp only [secureRandFloat64] at h ⊢
    have h1 : (n % 2^53 : ℕ) ≠ 0 := by
      intro h0
      apply h
      rw [h0]
      norm_num
    have h2 : (1:ℚ) ≤ ((n % 2^53 : ℕ) : ℚ) := by
      have : 1 ≤ (n % 2^53 : ℕ) := Nat.one_le_iff_ne_zero.mpr h1
      exact_mod_cast this
    calc (1:ℚ)/2^56 ≤ 1/2^53 := by norm_num
      _ ≤ ((n % 2^53 : ℕ) : ℚ) / 2^53 := by gcongr

/-- wrap64 is the identity on in-range int64 values. -/
theorem wrap64_eq_self (z : ℤ) (h0 : 0 ≤ z) (h1 : z < 2^63) : wrap64 z = z := by
  unfold wrap64
  rw [Int.emod_eq_of_lt (by omega) (by omega)]
  omega

/-- The integer 2^53 + 1 is not a binary64 value: it rounds (ties to even)
down to 2^53. -/
theorem fl64_pow53_succ : fl64 ((2:ℚ)^53 + 1) = 2^53 := by
  have hs1 : scaleDown 1199 (((2:ℚ)^53 + 1)/2) = (((2:ℚ)^53 + 1)/2, 0) :=
    scaleDown_of_lt 1199 _ (by norm_num)
  have hs0 : scaleDown 1200 ((2:ℚ)^53 + 1) = (((2:ℚ)^53 + 1)/2, 1) := by
    rw [show (1200:ℕ) = 1199 + 1 from rfl, scaleDown_succ, if_neg (by norm_num), hs1]
  have hu : scaleUp 1200 (((2:ℚ)^53 + 1)/2) = (((2:ℚ)^53 + 1)/2, 0) := by
    rw [show (1200:ℕ) = 1199 + 1 from rfl, scaleUp_succ, if_pos (by norm_num)]
  have hfloor : ⌊((2:ℚ)^53 + 1)/2⌋ = 2^52 := by
    rw [Int.floor_eq_iff]
    constructor
    · push_cast
      norm_num
    · push_cast
      norm_num
  have hr : rndNE (((2:ℚ)^53 + 1)/2) = 2^52 := by
    unfold rndNE
    rw [hfloor]
    norm_num
  unfold fl64
  rw [if_neg (by norm_num)]
  rw [hs0]
  dsimp only
  rw [hu]
  dsimp only
  rw [hr]
  norm_num

/-- fl64 is exact at the power 2^53. -/
theorem fl64_pow53 : fl64 ((2:ℚ)^53) = 2^53 := by
  have hs1 : scaleDown 1199 ((2:ℚ)^52) = ((2:ℚ)^52, 0) :=
    scaleDown_of_lt 1199 _ (by norm_num)
  have hs0 : scaleDown 1200 ((2:ℚ)^53) = ((2:ℚ)^52, 1) := by
    rw [show (1200:ℕ) = 1199 + 1 from rfl, scaleDown_succ, if_neg (by norm_num)]
    rw [show ((2:ℚ)^53)/2 = (2:ℚ)^52 by norm_num, hs1]
  have hu : scaleUp 1200 ((2:ℚ)^52) = ((2:ℚ)^52, 0) := by
    rw [show (1200:ℕ) = 1199 + 1 from rfl, scaleUp_succ, if_pos (by norm_num)]
  have hr : rndNE ((2:ℚ)^52) = 2^52 := by
    rw [show ((2:ℚ)^52) = (((2^52 : ℤ)) : ℚ) by norm_num, rndNE_intCast]
  unfold fl64
  rw [if_neg (by norm_num)]
  rw [hs0]
  dsimp only
  rw [hu]
  dsimp only
  rw [hr]
  norm_num

/-- C7 counterexample: with retry delay 2^53 + 1 nanoseconds at attempt 0
and the zero random draw, float64 conversion rounds the base delay down,
so the program sleeps 2^53 nanoseconds - strictly less than
base_delay * 2^0 - refuting the claimed lower bound. -/
theorem c7_counterexample :
    totalDelayF (2^53 + 1) 0 (secureRandFloat64 (some 0)) = 2^53 ∧
    (2^53 : ℤ) < (2^53 + 1) * 2^0 := by
  constructor
  · have hrand : secureRandFloat64 (some 0) = 0 := by
      simp [secureRandFloat64]
    have hB : backoffDelayF (2^53 + 1) 0 = 2^53 := by
      unfold backoffDelayF
      have h1 : (((2^53 + 1 : ℤ)) : ℚ) = (2:ℚ)^53 + 1 := by push_cast; ring
      rw [h1, fl64_pow53_succ, pow_zero, mul_one, fl64_pow53]
      unfold durationOfFloat
      rw [if_pos (by norm_num)]
      norm_num
    have hJ : jitterDelayF 0 (2^53) = 0 := by
      unfold jitterDelayF
      rw [zero_mul, fl64_zero, zero_mul, fl64_zero]
      unfold durationOfFloat
      rw [if_pos (by norm_num)]
      norm_num
    unfold totalDelayF
    rw [hB, hrand, hJ]
    unfold wrap64
    norm_num
  · norm_num

set_option maxRecDepth 2000 in
/-- C7 as amended: for base delays whose backoff term base * 2^k stays
below 2^52 nanoseconds - the range in which the float64 computation of the
backoff term is exact; beyond 2^53 the float64 conversion rounds the base
delay (see the counterexample) and near 2^63 the Duration conversion
overflows - the backoff Duration equals base * 2^k exactly, the jitter
Duration is nonnegative so the slept delay is at least base * 2^k, and the
delay is at most base * 2^k * 1.1, strictly below it whenever base * 2^k
is not a multiple of ten (at a multiple of ten the rounding of the two
float64 jitter multiplications is not excluded from reaching the bound
exactly). -/
theorem c7_backoff_bounds_float (base : ℤ) (k : ℕ) (e : Option ℕ)
    (hbase : 0 < base) (hrange : base * 2^k < 2^52) :
    backoffDelayF base k = base * 2^k ∧
    0 ≤ jitterDelayF (secureRandFloat64 e) (backoffDelayF base k) ∧
    base * 2^k ≤ totalDelayF base k (secureRandFloat64 e) ∧
    ((totalDelayF base k (secureRandFloat64 e) : ℚ) ≤ ((base:ℚ) * 2^k) * (11/10)) ∧
    (¬ (10 ∣ base * 2^k) →
      ((totalDelayF base k (secureRandFloat64 e) : ℚ) < ((base:ℚ) * 2^k) * (11/10))) := by
  have h2k : (1:ℤ) ≤ 2^k := by
    have := pow_pos (show (0:ℤ) < 2 by norm_num) k
    omega
  have hBpos : 0 < base * 2^k := by positivity
  have hB53 : base * 2^k < 2^53 := lt_trans hrange (by norm_num)
  have hble : base ≤ base * 2^k := le_mul_of_one_le_right hbase.le h2k
  have hbase53 : base < 2^53 := lt_of_le_of_lt hble hB53
  have hbq : (0:ℚ) < (base:ℚ) := by exact_mod_cast hbase
  have hBF : backoffDelayF base k = base * 2^k := by
    unfold backoffDelayF
    rw [fl64_intCast_exact base hbase hbase53]
    rw [show ((base:ℚ)) * 2^k = (((base * 2^k : ℤ)) : ℚ) by push_cast; ring]
    rw [fl64_intCast_exact _ hBpos hB53]
    unfold durationOfFloat
    rw [if_pos (by exact_mod_cast lt_trans hB53 (show (2:ℤ)^53 < 2^63 by norm_num))]
    rw [Int.floor_intCast]
  set r := secureRandFloat64 e with hrdef
  have hr0 : 0 ≤ r := secureRandFloat64_nonneg e
  have hr1 : r ≤ 1 - 1/2^53 := secureRandFloat64_le e
  set qB : ℚ := ((base * 2^k : ℤ) : ℚ) with hqBdef
  have hqB1 : 1 ≤ qB := by
    rw [hqBdef]
    have h : (1:ℤ) ≤ base * 2^k := by omega
    exact_mod_cast h
  have hqBub : qB < 2^52 := by
    rw [hqBdef]
    exact_mod_cast hrange
  have hqB0 : 0 < qB := lt_of_lt_of_le one_pos hqB1
  have hqBcast : qB = (base:ℚ) * 2^k := by rw [hqBdef]; push_cast; ring
  have hfqB : fl64 qB = fl64 ((base * 2^k : ℤ) : ℚ) := by rw [hqBdef]
  have hfqB2 : fl64 qB = qB := by
    rw [hfqB, fl64_intCast_exact _ hBpos hB53, hqBdef]
  by_cases hr : r = 0
  · have hjd : jitterDelayF r (base * 2^k) = 0 := by
      unfold jitterDelayF
      rw [← hqBdef, hfqB2, hr, zero_mul, fl64_zero, zero_mul, fl64_zero]
      unfold durationOfFloat
      rw [if_pos (by norm_num)]
      norm_num
    have htot : totalDelayF base k r = base * 2^k := by
      unfold totalDelayF
      rw [hBF, hjd, add_zero]
      exact wrap64_eq_self _ hBpos.le (lt_trans hB53 (by norm_num))
    have hq : ((base * 2^k : ℤ) : ℚ) = (base:ℚ) * 2^k := by push_cast; ring
    have hBq0 : (0:ℚ) < (base:ℚ) * 2^k := by positivity
    refine ⟨hBF, ?_, ?_, ?_, ?_⟩
    · rw [hBF, hjd]
    · rw [htot]
    · rw [htot, hq]
      linarith
    · intro hdvd
      rw [htot, hq]
      linarith
  · have hrlb : 1/2^56 ≤ r := secureRandFloat64_lb e hr
    have hrub : r ≤ 1 := by linarith [hr1]
    have hx1mono : (1:ℚ)/2^56 * 1 ≤ r * qB :=
      mul_le_mul hrlb hqB1 (by norm_num) hr0
    have hx1lb : 1/2^1000 ≤ r * qB := by
      calc (1:ℚ)/2^1000 ≤ 1/2^56 * 1 := by norm_num
        _ ≤ r * qB := hx1mono
    have hx1ub : r * qB ≤ 2^1000 := by
      have h1 : r * qB ≤ 1 * 2^52 := mul_le_mul hrub hqBub.le hqB0.le (by norm_num)
      calc r * qB ≤ 1 * 2^52 := h1
        _ ≤ 2^1000 := by norm_num
    have hA_ub : fl64 (r * qB) ≤ (r * qB) * (1 + 1/2^53) := fl64_le_mul _ hx1lb hx1ub
    have hA_lb : (r * qB) * (1 - 1/2^53) ≤ fl64 (r * qB) := fl64_ge_mul _ hx1lb hx1ub
    have hc01 : c01 = (1/10) * (1 + 1/2^54) := by norm_num [c01]
    have hc01pos : (0:ℚ) < c01 := by norm_num [c01]
    have hc01le : c01 ≤ 1 := by norm_num [c01]
    have hx2lb : 1/2^1000 ≤ fl64 (r * qB) * c01 := by
      have h1 : (1:ℚ)/2^57 ≤ fl64 (r * qB) := by
        calc (1:ℚ)/2^57 ≤ (1/2^56 * 1) * (1 - 1/2^53) := by norm_num
          _ ≤ (r * qB) * (1 - 1/2^53) :=
            mul_le_mul_of_nonneg_right hx1mono (by norm_num)
          _ ≤ fl64 (r * qB) := hA_lb
      calc (1:ℚ)/2^1000 ≤ (1/2^57) * c01 := by norm_num [c01]
        _ ≤ fl64 (r * qB) * c01 := mul_le_mul_of_nonneg_right h1 hc01pos.le
    have hAub2 : fl64 (r * qB) ≤ 2^53 := by
      have h2 : (r * qB) * (1 + 1/2^53) ≤ (1 * 2^52) * (1 + 1/2^53) := by
        have h1 : r * qB ≤ 1 * 2^52 := mul_le_mul hrub hqBub.le hqB0.le (by norm_num)
        exact mul_le_mul_of_nonneg_right h1 (by norm_num)
      calc fl64 (r * qB) ≤ (r * qB) * (1 + 1/2^53) := hA_ub
        _ ≤ (1 * 2^52) * (1 + 1/2^53) := h2
        _ ≤ 2^53 := by norm_num
    have hx2ub : fl64 (r * qB) * c01 ≤ 2^1000 := by
      calc fl64 (r * qB) * c01 ≤ 2^53 * 1 :=
            mul_le_mul hAub2 hc01le hc01pos.le (by norm_num)
        _ ≤ 2^1000 := by norm_num
    have hJ_ub : fl64 (fl64 (r * qB) * c01) ≤ (fl64 (r * qB) * c01) * (1 + 1/2^53) :=
      fl64_le_mul _ hx2lb hx2ub
    have hJq : fl64 (fl64 (r * qB) * c01) ≤ qB/10 * (1 + 1/2^52) := by
      have s2 : fl64 (r * qB) * c01 ≤ ((r * qB) * (1 + 1/2^53)) * c01 :=
        mul_le_mul_of_nonneg_right hA_ub hc01pos.le
      have s3 : (fl64 (r * qB) * c01) * (1 + 1/2^53) ≤
          (((r * qB) * (1 + 1/2^53)) * c01) * (1 + 1/2^53) :=
        mul_le_mul_of_nonneg_right s2 (by norm_num)
      have h9 : r * qB ≤ (1 - 1/2^53) * qB :=
        mul_le_mul_of_nonneg_right hr1 hqB0.le
      have s4 : (((r * qB) * (1 + 1/2^53)) * c01) * (1 + 1/2^53) ≤
          ((((1 - 1/2^53) * qB) * (1 + 1/2^53)) * c01) * (1 + 1/2^53) :=
        mul_le_mul_of_nonneg_right
          (mul_le_mul_of_nonneg_right
            (mul_le_mul_of_nonneg_right h9 (by norm_num)) hc01pos.le)
          (by norm_num)
      have s5 : ((((1 - 1/2^53) * qB) * (1 + 1/2^53)) * c01) * (1 + 1/2^53) ≤
          qB/10 * (1 + 1/2^52) := by
        rw [hc01]
        have hC : ((1:ℚ) - 1/2^53) * (1 + 1/2^53) * ((1/10) * (1 + 1/2^54)) *
            (1 + 1/2^53) ≤ (1/10) * (1 + 1/2^52) := by norm_num
        calc (((1 - 1/2^53) * qB) * (1 + 1/2^53)) * ((1/10) * (1 + 1/2^54)) * (1 + 1/2^53)
            = qB * ((1 - 1/2^53) * (1 + 1/2^53) * ((1/10) * (1 + 1/2^54)) * (1 + 1/2^53)) := by
              ring
          _ ≤ qB * ((1/10) * (1 + 1/2^52)) := mul_le_mul_of_nonneg_left hC hqB0.le
          _ = qB/10 * (1 + 1/2^52) := by ring
      exact le_trans hJ_ub (le_trans s3 (le_trans s4 s5))
    have hJ0 : 0 ≤ fl64 (fl64 (r * qB) * c01) := fl64_nonneg _
    have hJlt63 : fl64 (fl64 (r * qB) * c01) < 2^63 := by
      have h7 : qB/10 * (1 + 1/2^52) < 2^63 := by nlinarith [hqBub]
      linarith [hJq]
    have hjd : jitterDelayF r (base * 2^k) = ⌊fl64 (fl64 (r * qB) * c01)⌋ := by
      unfold jitterDelayF
      rw [← hqBdef, hfqB2]
      unfold durationOfFloat
      rw [if_pos hJlt63]
    have hjit0 : 0 ≤ ⌊fl64 (fl64 (r * qB) * c01)⌋ := Int.floor_nonneg.mpr hJ0
    have hj10 : 10 * ⌊fl64 (fl64 (r * qB) * c01)⌋ ≤ base * 2^k := by
      have h1 : (⌊fl64 (fl64 (r * qB) * c01)⌋ : ℚ) ≤ fl64 (fl64 (r * qB) * c01) :=
        Int.floor_le _
      have h2 : fl64 (fl64 (r * qB) * c01) < (qB + 1)/10 := by
        have h8 : qB/10 * (1 + 1/2^52) < (qB + 1)/10 := by nlinarith [hqBub]
        linarith [hJq]
      have h3 : ((10 * ⌊fl64 (fl64 (r * qB) * c01)⌋ : ℤ) : ℚ) < qB + 1 := by
        push_cast
        linarith
      have hcast1 : ((base * 2^k + 1 : ℤ) : ℚ) = qB + 1 := by
        rw [hqBdef]
        push_cast
        ring
      have h4 : ((10 * ⌊fl64 (fl64 (r * qB) * c01)⌋ : ℤ) : ℚ) <
          ((base * 2^k + 1 : ℤ) : ℚ) := by
        rw [hcast1]
        exact h3
      have h5 : (10 * ⌊fl64 (fl64 (r * qB) * c01)⌋ : ℤ) < base * 2^k + 1 := by
        exact_mod_cast h4
      omega
    have htot : totalDelayF base k r = base * 2^k + ⌊fl64 (fl64 (r * qB) * c01)⌋ := by
      unfold totalDelayF
      rw [hBF, hjd]
      exact wrap64_eq_self _ (by omega) (by omega)
    refine ⟨hBF, ?_, ?_, ?_, ?_⟩
    · rw [hBF, hjd]
      exact hjit0
    · rw [htot]
      omega
    · rw [htot]
      have hint : 10 * (base * 2^k + ⌊fl64 (fl64 (r * qB) * c01)⌋) ≤
          11 * (base * 2^k) := by omega
      have hqi : ((10 * (base * 2^k + ⌊fl64 (fl64 (r * qB) * c01)⌋) : ℤ) : ℚ) ≤
          ((11 * (base * 2^k) : ℤ) : ℚ) := by exact_mod_cast hint
      push_cast at hqi ⊢
      linarith
    · intro hdvd
      have hne : 10 * ⌊fl64 (fl64 (r * qB) * c01)⌋ ≠ base * 2^k := by
        intro heq
        exact hdvd ⟨⌊fl64 (fl64 (r * qB) * c01)⌋, heq.symm⟩
      have hint : 10 * (base * 2^k + ⌊fl64 (fl64 (r * qB) * c01)⌋) ≤
          11 * (base * 2^k) - 1 := by omega
      rw [htot]
      have hqi : ((10 * (base * 2^k + ⌊fl64 (fl64 (r * qB) * c01)⌋) : ℤ) : ℚ) ≤
          ((11 * (base * 2^k) - 1 : ℤ) : ℚ) := by exact_mod_cast hint
      push_cast at hqi ⊢
      linarith

/-- C7 witness: base delay one nanosecond at attempt zero with the zero
random draw satisfies the amended bounds. -/
theorem c7_float_witness :
    backoffDelayF 1 0 = 1 * 2^0 ∧
    0 ≤ jitterDelayF (secureRandFloat64 (some 0)) (backoffDelayF 1 0) ∧
    1 * 2^0 ≤ totalDelayF 1 0 (secureRandFloat64 (some 0)) ∧
    ((totalDelayF 1 0 (secureRandFloat64 (some 0)) : ℚ) ≤ (((1:ℤ):ℚ) * 2^0) * (11/10)) ∧
    (¬ ((10:ℤ) ∣ 1 * 2^0) →
      ((totalDelayF 1 0 (secureRandFloat64 (some 0)) : ℚ) < (((1:ℤ):ℚ) * 2^0) * (11/10))) :=
  c7_backoff_bounds_float 1 0 (some 0) (by norm_num) (by norm_num)

end FlowSpec
